import Mathlib

/-!
Verification of the `tp_task_queue` scheduler (`src/src/TaskQueue.cpp`).

The scheduler state guarded by the registry mutex (`Private::tasks`,
`Private::nextTaskIndex`, `Private::workDone`, `Private::waitFor`) and the
status mirror guarded by `taskStatusMutex` (`Private::taskStatuses`) are
embedded as a pure record `QueueState`.  Each lock-protected region of the
C++ code becomes a pure function from `QueueState` to `QueueState` paired
with the list of externally visible events it emits (condition-variable
wakes, ChangeNotifier firings, `updateTaskStatus` deliveries, task
destruction).  Machine `int64_t` values are embedded as `Int`; the sentinel
`INT64_MAX` is kept as the literal the code uses.  The interleaved
execution of the worker pool is embedded separately as a small-step
transition system (`SysState` / `Step`) in which each lock-held region of a
worker is one atomic step.
-/

namespace TpTaskQueue

/-- `INT64_MAX`, the initial / reset value of `Private::waitFor`. -/
def int64Max : Int := 9223372036854775807

/-- Outcome of `Task::performTask()`. -/
inductive RunAgain where
  | Yes
  | No
deriving DecidableEq, Repr

/-- `tp_task_queue::TaskStatus`: the snapshot record mirrored by the queue
(fields used by `TaskQueue.cpp`: `taskID`, `message`, `paused`, `complete`,
`rev`). -/
structure TaskStatus where
  taskID : Int
  message : String
  paused : Bool
  complete : Bool
  rev : Int
deriving DecidableEq, Repr

/-- The `Task` collaborator, embedded as the record of observations the
scheduler makes of it: `taskID()`, `paused()`, `timeoutMS()`,
`timeoutMessage()`, `taskStatus()`, and the cancellation flag that
`cancelTask()` sets. -/
structure Task where
  taskID : Int
  paused : Bool
  cancelled : Bool
  timeoutMS : Int
  timeoutMessage : String
  status : TaskStatus
deriving DecidableEq, Repr

/-- `TaskDetails_lt`: one registry entry (`task`, `nextRun`, `active`). -/
structure TaskDetails_lt where
  task : Task
  nextRun : Int
  active : Bool
deriving DecidableEq, Repr

/-- Externally visible events emitted by the embedded operations. -/
inductive Event where
  | setTaskQueue (taskID : Int)
  | installCallback (taskID : Int)
  | wakeOne
  | wakeAll
  | notifyChanged
  | performTask (taskID : Int)
  | updateTaskStatus (ts : TaskStatus)
  | destroyEntry (taskID : Int)
deriving DecidableEq, Repr

/-- The mutex-protected state of `TaskQueue::Private` that the claims are
about: the registry list, the round-robin cursor, the `workDone` flag, the
accumulated minimum wait, and the status mirror. -/
structure QueueState where
  tasks : List TaskDetails_lt
  nextTaskIndex : Nat
  workDone : Bool
  waitFor : Int
  taskStatuses : List TaskStatus
deriving DecidableEq, Repr

/-- First status in the mirror with the given `taskID` (the entry the C++
`for`/`break` loops act on). -/
def firstStatus : List TaskStatus → Int → Option TaskStatus
  | [], _ => none
  | s :: rest, tid => if s.taskID = tid then some s else firstStatus rest tid

/-- Whether the mirror holds an entry with the given `taskID`. -/
def hasStatus (statuses : List TaskStatus) (tid : Int) : Bool :=
  statuses.any fun s => s.taskID = tid

/-- The body of the status-changed callback installed by `TaskQueue::addTask`
(lines 302–317): overwrite the first mirror entry with the pushed snapshot's
`taskID` by the snapshot, preserving the mirror's own `rev`. -/
def mirrorPush : List TaskStatus → TaskStatus → List TaskStatus
  | [], _ => []
  | s :: rest, ts =>
    if s.taskID = ts.taskID then { ts with rev := s.rev } :: rest
    else s :: mirrorPush rest ts

/-- The whole status-changed callback: the mirror update under
`taskStatusMutex` followed by the unconditional `taskStatusChanged()`. -/
def statusChangedCallback (statuses : List TaskStatus) (ts : TaskStatus) :
    List TaskStatus × List Event :=
  (mirrorPush statuses ts, [Event.notifyChanged])

/-- `TaskQueue::addTask` (lines 287–319): set the owner, create an entry with
`nextRun = now + timeoutMS` and `active = false`, append it, wake one worker,
append the task's initial snapshot to the mirror, install the status-push
callback, and fire the ChangeNotifier once. -/
def addTask (now : Int) (st : QueueState) (task : Task) :
    QueueState × List Event :=
  let entry : TaskDetails_lt := { task := task, nextRun := now + task.timeoutMS, active := false }
  ({ st with tasks := st.tasks ++ [entry],
             taskStatuses := st.taskStatuses ++ [task.status] },
   [Event.setTaskQueue task.taskID, Event.wakeOne,
    Event.installCallback task.taskID, Event.notifyChanged])

theorem firstStatus_mirrorPush_self (statuses : List TaskStatus) (ts s : TaskStatus)
    (h : firstStatus statuses ts.taskID = some s) :
    firstStatus (mirrorPush statuses ts) ts.taskID = some { ts with rev := s.rev } := by
  induction statuses with
  | nil => simp [firstStatus] at h
  | cons a rest ih =>
    by_cases hid : a.taskID = ts.taskID
    · simp [firstStatus, mirrorPush, hid] at h ⊢
      simp [h]
    · simp [firstStatus, mirrorPush, hid] at h ⊢
      exact ih h

theorem mirrorPush_other (statuses : List TaskStatus) (ts : TaskStatus) (tid : Int)
    (h : tid ≠ ts.taskID) :
    firstStatus (mirrorPush statuses ts) tid = firstStatus statuses tid := by
  have hne : ¬ (ts.taskID = tid) := fun hc => h hc.symm
  induction statuses with
  | nil => simp [mirrorPush]
  | cons a rest ih =>
    by_cases hid : a.taskID = ts.taskID
    · have hane : ¬ (a.taskID = tid) := fun hc => hne (hid.symm.trans hc)
      simp [firstStatus, mirrorPush, hid, hne, hane]
    · by_cases ha : a.taskID = tid
      · simp [firstStatus, mirrorPush, hid, ha, hne, h]
      · simp [firstStatus, mirrorPush, hid, ha, hne, ih]

/-- C9: `addTask` appends an entry with `nextRun = now + timeoutMS` and
`active = false`, appends the task's initial snapshot to the mirror, wakes
exactly one worker, sets the queue as the task's owner, and fires the
ChangeNotifier exactly once. -/
theorem addTask_spec (now : Int) (st : QueueState) (task : Task) :
    (addTask now st task).1.tasks
        = st.tasks ++ [{ task := task, nextRun := now + task.timeoutMS, active := false }]
      ∧ (addTask now st task).1.taskStatuses = st.taskStatuses ++ [task.status]
      ∧ (addTask now st task).1.nextTaskIndex = st.nextTaskIndex
      ∧ (addTask now st task).1.workDone = st.workDone
      ∧ (addTask now st task).1.waitFor = st.waitFor
      ∧ ((addTask now st task).2.count Event.wakeOne = 1)
      ∧ ((addTask now st task).2.count Event.notifyChanged = 1)
      ∧ Event.setTaskQueue task.taskID ∈ (addTask now st task).2
      ∧ (addTask now st task).2.count Event.wakeAll = 0 := by
  refine ⟨rfl, rfl, rfl, rfl, rfl, ?_, ?_, ?_, ?_⟩ <;> simp [addTask, List.count_cons]

/-- C2: if the mirror holds an entry with the pushed snapshot's `taskID`,
the status-changed callback overwrites it by the snapshot except `rev`,
which keeps the mirror's prior value (so the observed `rev` never
decreases), and the ChangeNotifier then fires. -/
theorem statusChangedCallback_spec (statuses : List TaskStatus) (ts s : TaskStatus)
    (h : firstStatus statuses ts.taskID = some s) :
    firstStatus (statusChangedCallback statuses ts).1 ts.taskID
        = some { ts with rev := s.rev }
      ∧ (∀ tid, tid ≠ ts.taskID →
          firstStatus (statusChangedCallback statuses ts).1 tid = firstStatus statuses tid)
      ∧ (statusChangedCallback statuses ts).2 = [Event.notifyChanged]
      ∧ s.rev ≤ (TaskStatus.mk ts.taskID ts.message ts.paused ts.complete s.rev).rev := by
  refine ⟨firstStatus_mirrorPush_self statuses ts s h, ?_, rfl, le_refl _⟩
  intro tid htid
  exact mirrorPush_other statuses ts tid htid

/-- Witness for C2's theorem at a concrete mirror. -/
theorem statusChangedCallback_spec_witness :
    firstStatus [TaskStatus.mk 7 "old" false false 3] 7
        = some (TaskStatus.mk 7 "old" false false 3)
      ∧ firstStatus (statusChangedCallback [TaskStatus.mk 7 "old" false false 3]
            (TaskStatus.mk 7 "new" true false 1)).1 7
        = some (TaskStatus.mk 7 "new" true false 3) := by
  refine ⟨by decide, ?_⟩
  exact (statusChangedCallback_spec [TaskStatus.mk 7 "old" false false 3]
    (TaskStatus.mk 7 "new" true false 1) (TaskStatus.mk 7 "old" false false 3) (by decide)).1

/-- Whether some registry entry carries the given `taskID`. -/
def hasTaskID (tasks : List TaskDetails_lt) (tid : Int) : Bool :=
  tasks.any fun e => e.task.taskID = tid

/-- Loop of `TaskQueue::cancelTask` (lines 322–334): linear scan, delegate
`cancelTask()` to the first entry with the id, wake all workers, break. -/
def cancelTaskGo : List TaskDetails_lt → Int → List TaskDetails_lt × List Event
  | [], _ => ([], [])
  | e :: rest, tid =>
    if e.task.taskID = tid then
      ({ e with task := { e.task with cancelled := true } } :: rest, [Event.wakeAll])
    else
      let r := cancelTaskGo rest tid
      (e :: r.1, r.2)

/-- `TaskQueue::cancelTask`. -/
def cancelTask (st : QueueState) (tid : Int) : QueueState × List Event :=
  ({ st with tasks := (cancelTaskGo st.tasks tid).1 }, (cancelTaskGo st.tasks tid).2)

/-- Loop of `TaskQueue::pauseTask` (lines 337–349): delegate
`setPaused(paused)` to the first entry with the id, wake all workers. -/
def pauseTaskGo : List TaskDetails_lt → Int → Bool → List TaskDetails_lt × List Event
  | [], _, _ => ([], [])
  | e :: rest, tid, p =>
    if e.task.taskID = tid then
      ({ e with task := { e.task with paused := p } } :: rest, [Event.wakeAll])
    else
      let r := pauseTaskGo rest tid p
      (e :: r.1, r.2)

/-- `TaskQueue::pauseTask`. -/
def pauseTask (st : QueueState) (tid : Int) (p : Bool) : QueueState × List Event :=
  ({ st with tasks := (pauseTaskGo st.tasks tid p).1 }, (pauseTaskGo st.tasks tid p).2)

/-- Loop of `TaskQueue::togglePauseTask` (lines 352–364): delegate
`setPaused(!paused())` to the first entry with the id, wake all workers. -/
def togglePauseTaskGo : List TaskDetails_lt → Int → List TaskDetails_lt × List Event
  | [], _ => ([], [])
  | e :: rest, tid =>
    if e.task.taskID = tid then
      ({ e with task := { e.task with paused := !e.task.paused } } :: rest, [Event.wakeAll])
    else
      let r := togglePauseTaskGo rest tid
      (e :: r.1, r.2)

/-- `TaskQueue::togglePauseTask`. -/
def togglePauseTask (st : QueueState) (tid : Int) : QueueState × List Event :=
  ({ st with tasks := (togglePauseTaskGo st.tasks tid).1 }, (togglePauseTaskGo st.tasks tid).2)

theorem cancelTaskGo_not_found (l : List TaskDetails_lt) (tid : Int)
    (h : hasTaskID l tid = false) : cancelTaskGo l tid = (l, []) := by
  induction l with
  | nil => rfl
  | cons e rest ih =>
    simp only [hasTaskID, List.any_cons, Bool.or_eq_false_iff, decide_eq_false_iff_not] at h
    simp [cancelTaskGo, h.1, ih (by simp [hasTaskID, h.2])]

theorem pauseTaskGo_not_found (l : List TaskDetails_lt) (tid : Int) (p : Bool)
    (h : hasTaskID l tid = false) : pauseTaskGo l tid p = (l, []) := by
  induction l with
  | nil => rfl
  | cons e rest ih =>
    simp only [hasTaskID, List.any_cons, Bool.or_eq_false_iff, decide_eq_false_iff_not] at h
    simp [pauseTaskGo, h.1, ih (by simp [hasTaskID, h.2])]

theorem togglePauseTaskGo_not_found (l : List TaskDetails_lt) (tid : Int)
    (h : hasTaskID l tid = false) : togglePauseTaskGo l tid = (l, []) := by
  induction l with
  | nil => rfl
  | cons e rest ih =>
    simp only [hasTaskID, List.any_cons, Bool.or_eq_false_iff, decide_eq_false_iff_not] at h
    simp [togglePauseTaskGo, h.1, ih (by simp [hasTaskID, h.2])]

theorem opsGo_found (l : List TaskDetails_lt) (tid : Int) (p : Bool)
    (h : hasTaskID l tid = true) :
    ∃ pre e post, l = pre ++ e :: post ∧ (∀ x ∈ pre, x.task.taskID ≠ tid)
      ∧ e.task.taskID = tid
      ∧ cancelTaskGo l tid
          = (pre ++ { e with task := { e.task with cancelled := true } } :: post,
             [Event.wakeAll])
      ∧ pauseTaskGo l tid p
          = (pre ++ { e with task := { e.task with paused := p } } :: post,
             [Event.wakeAll])
      ∧ togglePauseTaskGo l tid
          = (pre ++ { e with task := { e.task with paused := !e.task.paused } } :: post,
             [Event.wakeAll]) := by
  induction l with
  | nil => simp [hasTaskID] at h
  | cons e rest ih =>
    by_cases h1 : e.task.taskID = tid
    · exact ⟨[], e, rest, rfl, by simp, h1, by simp [cancelTaskGo, h1],
        by simp [pauseTaskGo, h1], by simp [togglePauseTaskGo, h1]⟩
    · have h2 : hasTaskID rest tid = true := by
        simpa [hasTaskID, h1] using h
      obtain ⟨pre, e2, post, hl, hpre, he2, hc, hp, ht⟩ := ih h2
      refine ⟨e :: pre, e2, post, by simp [hl], ?_, he2,
        by simp [cancelTaskGo, h1, hc], by simp [pauseTaskGo, h1, hp],
        by simp [togglePauseTaskGo, h1, ht]⟩
      intro x hx
      rcases List.mem_cons.mp hx with rfl | hx2
      · exact h1
      · exact hpre x hx2

/-- C8: `cancelTask`, `pauseTask` and `togglePauseTask` are no-ops (no state
change, no wake) when no registry entry has the given `taskID`; when one
does, exactly the first matching entry's task receives the delegated call
and all workers are woken. -/
theorem cancel_pause_toggle_spec (st : QueueState) (tid : Int) (p : Bool) :
    (hasTaskID st.tasks tid = false →
        cancelTask st tid = (st, []) ∧ pauseTask st tid p = (st, [])
          ∧ togglePauseTask st tid = (st, []))
  ∧ (hasTaskID st.tasks tid = true →
      ∃ pre e post, st.tasks = pre ++ e :: post
        ∧ (∀ x ∈ pre, x.task.taskID ≠ tid) ∧ e.task.taskID = tid
        ∧ cancelTask st tid
            = ({ st with tasks :=
                  pre ++ { e with task := { e.task with cancelled := true } } :: post },
               [Event.wakeAll])
        ∧ pauseTask st tid p
            = ({ st with tasks :=
                  pre ++ { e with task := { e.task with paused := p } } :: post },
               [Event.wakeAll])
        ∧ togglePauseTask st tid
            = ({ st with tasks :=
                  pre ++ { e with task := { e.task with paused := !e.task.paused } } :: post },
               [Event.wakeAll])) := by
  constructor
  · intro h
    refine ⟨?_, ?_, ?_⟩ <;>
      simp [cancelTask, pauseTask, togglePauseTask,
        cancelTaskGo_not_found st.tasks tid h,
        pauseTaskGo_not_found st.tasks tid p h,
        togglePauseTaskGo_not_found st.tasks tid h]
  · intro h
    obtain ⟨pre, e, post, hl, hpre, he, hc, hp, ht⟩ := opsGo_found st.tasks tid p h
    exact ⟨pre, e, post, hl, hpre, he,
      by simp [cancelTask, hc], by simp [pauseTask, hp], by simp [togglePauseTask, ht]⟩

/-- A one-entry queue used to witness C8's theorem. -/
def stC8 : QueueState :=
  { tasks := [⟨⟨1, false, false, 0, "", ⟨1, "", false, false, 0⟩⟩, 0, false⟩],
    nextTaskIndex := 0, workDone := false, waitFor := int64Max, taskStatuses := [] }

/-- Witness for C8's theorem: the found branch at a concrete queue. -/
theorem cancel_pause_toggle_spec_witness :
    (cancelTask stC8 1).2 = [Event.wakeAll]
      ∧ (togglePauseTask stC8 1).2 = [Event.wakeAll] := by
  obtain ⟨pre, e, post, _, _, _, hc, _, ht⟩ :=
    (cancel_pause_toggle_spec stC8 1 true).2 (by decide)
  exact ⟨by rw [hc], by rw [ht]⟩

/-- `std::find` over the registry list (pointer identity embedded as value
identity), returning the index. -/
def findIndexOfEntry : List TaskDetails_lt → TaskDetails_lt → Option Nat
  | [], _ => none
  | e :: rest, td =>
    if e = td then some 0
    else (findIndexOfEntry rest td).map (· + 1)

/-- Registry-entry removal of lines 162–170: find the entry; if found,
decrement the cursor when the found index precedes it, then erase. -/
def eraseEntry (tasks : List TaskDetails_lt) (cursor : Nat) (td : TaskDetails_lt) :
    List TaskDetails_lt × Nat :=
  match findIndexOfEntry tasks td with
  | none => (tasks, cursor)
  | some i => (tasks.eraseIdx i, if i < cursor then cursor - 1 else cursor)

theorem findIndexOfEntry_get (l : List TaskDetails_lt) (td : TaskDetails_lt) (i : Nat)
    (h : findIndexOfEntry l td = some i) :
    i < l.length ∧ l.get? i = some td := by
  induction l generalizing i with
  | nil => simp [findIndexOfEntry] at h
  | cons e rest ih =>
    by_cases he : e = td
    · simp only [findIndexOfEntry, if_pos he] at h
      have h0 : (0 : Nat) = i := Option.some.inj h
      subst h0
      exact ⟨by simp, by simp [he]⟩
    · simp only [findIndexOfEntry, if_neg he, Option.map_eq_some'] at h
      obtain ⟨j, hj, rfl⟩ := h
      obtain ⟨hjl, hget⟩ := ih j hj
      exact ⟨by simp [Nat.succ_lt_succ hjl], by simpa using hget⟩

theorem mem_findIndexOfEntry (l : List TaskDetails_lt) (td : TaskDetails_lt)
    (h : td ∈ l) : ∃ i, findIndexOfEntry l td = some i := by
  induction l with
  | nil => simp at h
  | cons e rest ih =>
    by_cases he : e = td
    · exact ⟨0, by simp [findIndexOfEntry, he]⟩
    · have hmem : td ∈ rest := by
        rcases List.mem_cons.mp h with h1 | h1
        · exact absurd h1.symm he
        · exact h1
      obtain ⟨i, hi⟩ := ih hmem
      exact ⟨i + 1, by simp [findIndexOfEntry, he, hi]⟩

/-- C7: on removal of a completed entry, the cursor is decremented iff the
removed index is strictly smaller than the cursor; the cursor then still
denotes the same logical next entry (when the cursor did not sit exactly on
the removed index), and a cursor that was in bounds stays in bounds for the
shortened list. -/
theorem eraseEntry_cursor_spec (tasks : List TaskDetails_lt) (td : TaskDetails_lt)
    (cursor i : Nat) (hfind : findIndexOfEntry tasks td = some i) :
    (eraseEntry tasks cursor td).2 = (if i < cursor then cursor - 1 else cursor)
      ∧ (0 < cursor → ((eraseEntry tasks cursor td).2 < cursor ↔ i < cursor))
      ∧ (cursor ≤ tasks.length →
          (eraseEntry tasks cursor td).2 ≤ (eraseEntry tasks cursor td).1.length)
      ∧ (cursor < tasks.length → i ≠ cursor →
          (eraseEntry tasks cursor td).1.get? (eraseEntry tasks cursor td).2
            = tasks.get? cursor) := by
  obtain ⟨hi, -⟩ := findIndexOfEntry_get tasks td i hfind
  have herase : (eraseEntry tasks cursor td).1 = tasks.eraseIdx i := by
    simp [eraseEntry, hfind]
  have hcur : (eraseEntry tasks cursor td).2 = (if i < cursor then cursor - 1 else cursor) := by
    simp [eraseEntry, hfind]
  have hlen : (tasks.eraseIdx i).length + 1 = tasks.length :=
    List.length_eraseIdx_add_one hi
  refine ⟨hcur, ?_, ?_, ?_⟩
  · intro hpos
    rw [hcur]
    by_cases hic : i < cursor
    · simp [hic]
      omega
    · simp [hic]
  · intro hc
    rw [hcur, herase]
    by_cases hic : i < cursor
    · simp only [if_pos hic]
      omega
    · simp only [if_neg hic]
      omega
  · intro h hne
    have htd : tasks.eraseIdx i = tasks.take i ++ tasks.drop (i + 1) :=
      List.eraseIdx_eq_take_drop_succ tasks i
    have htake : (tasks.take i).length = i := by
      simp [List.length_take]
      omega
    rw [herase, hcur, htd]
    by_cases hic : i < cursor
    · rw [if_pos hic,
        List.get?_append_right (by omega : (tasks.take i).length ≤ cursor - 1),
        List.get?_drop, htake]
      congr 1
      omega
    · rw [if_neg hic, List.get?_append (by omega : cursor < (tasks.take i).length),
        List.get?_take (by omega : cursor < i)]

/-- Two distinct entries used to witness C7's theorem. -/
def tasksC7 : List TaskDetails_lt :=
  [⟨⟨1, false, false, 0, "", ⟨1, "", false, false, 0⟩⟩, 0, false⟩,
   ⟨⟨2, false, false, 0, "", ⟨2, "", false, false, 0⟩⟩, 0, false⟩]

/-- Witness for C7's theorem: removing the entry at index 1 with the cursor
at 2 decrements the cursor. -/
theorem eraseEntry_cursor_spec_witness :
    (eraseEntry tasksC7 2 ⟨⟨2, false, false, 0, "", ⟨2, "", false, false, 0⟩⟩, 0, false⟩).2
      = 1 := by
  have h := (eraseEntry_cursor_spec tasksC7
    ⟨⟨2, false, false, 0, "", ⟨2, "", false, false, 0⟩⟩, 0, false⟩ 2 1 (by decide)).1
  simpa using h

/-- Mirror-entry removal of lines 172–182: `tpRemoveAt` at the first index
whose `taskID` matches, then break. -/
def removeStatusByID : List TaskStatus → Int → List TaskStatus
  | [], _ => []
  | s :: rest, tid => if s.taskID = tid then rest else s :: removeStatusByID rest tid

/-- In-place mutation of a registry entry reached through its pointer,
embedded as replacement of the first occurrence of the old value. -/
def replaceFirst : List TaskDetails_lt → TaskDetails_lt → TaskDetails_lt → List TaskDetails_lt
  | [], _, _ => []
  | e :: rest, old, new =>
    if e = old then new :: rest else e :: replaceFirst rest old new

/-- Lines 160–196 of the worker loop: the bookkeeping after `performTask`
returns.  If `timeoutMS() < 1` or the task declined to run again, erase the
registry entry (adjusting the cursor), remove its mirror entry, deliver the
snapshot with `complete = true` via `updateTaskStatus`, and destroy the
entry.  Otherwise advance `nextRun` (when `timeoutMS() > 0`) and clear
`active`. -/
def afterPerform (now : Int) (st : QueueState) (td : TaskDetails_lt)
    (runAgain : RunAgain) : QueueState × List Event :=
  if td.task.timeoutMS < 1 ∨ runAgain = RunAgain.No then
    let r := eraseEntry st.tasks st.nextTaskIndex td
    ({ st with tasks := r.1, nextTaskIndex := r.2,
               taskStatuses := removeStatusByID st.taskStatuses td.task.taskID },
     [Event.updateTaskStatus { td.task.status with complete := true },
      Event.destroyEntry td.task.taskID])
  else
    let td2 : TaskDetails_lt :=
      { td with
        nextRun := if 0 < td.task.timeoutMS then now + td.task.timeoutMS else td.nextRun,
        active := false }
    ({ st with tasks := replaceFirst st.tasks td td2 }, [])

theorem eraseEntry_removes (l : List TaskDetails_lt) (c : Nat) (td : TaskDetails_lt)
    (h1 : l.count td = 1) :
    td ∉ (eraseEntry l c td).1
      ∧ (eraseEntry l c td).1.length + 1 = l.length
      ∧ ∀ x ∈ (eraseEntry l c td).1, x ∈ l := by
  have hmem : td ∈ l := List.count_pos_iff.mp (by omega)
  obtain ⟨i, hfind⟩ := mem_findIndexOfEntry l td hmem
  obtain ⟨hi, hget⟩ := findIndexOfEntry_get l td i hfind
  have herase : (eraseEntry l c td).1 = l.eraseIdx i := by
    simp [eraseEntry, hfind]
  have htd : l.eraseIdx i = l.take i ++ l.drop (i + 1) :=
    List.eraseIdx_eq_take_drop_succ l i
  obtain ⟨hi2, hgetE⟩ := List.get?_eq_some.mp hget
  have hdrop : l.drop i = td :: l.drop (i + 1) := by
    rw [List.drop_eq_getElem_cons hi]
    rw [List.get_eq_getElem] at hgetE
    rw [hgetE]
  have hcount : l.count td
      = (l.take i).count td + ((l.drop (i + 1)).count td + 1) := by
    conv_lhs => rw [← List.take_append_drop i l, hdrop]
    rw [List.count_append, List.count_cons_self]
  have ht0 : (l.take i).count td = 0 := by omega
  have hd0 : (l.drop (i + 1)).count td = 0 := by omega
  refine ⟨?_, by rw [herase]; exact List.length_eraseIdx_add_one hi, ?_⟩
  · rw [herase, htd]
    intro hx
    rcases List.mem_append.mp hx with hx | hx
    · exact absurd hx (List.count_eq_zero.mp ht0)
    · exact absurd hx (List.count_eq_zero.mp hd0)
  · intro x hx
    rw [herase, htd] at hx
    rcases List.mem_append.mp hx with hx | hx
    · exact List.take_subset i l hx
    · exact List.drop_subset (i + 1) l hx

theorem removeStatusByID_not_has (statuses : List TaskStatus) (tid : Int)
    (h : (statuses.countP fun s => s.taskID = tid) ≤ 1) :
    hasStatus (removeStatusByID statuses tid) tid = false := by
  induction statuses with
  | nil => rfl
  | cons s rest ih =>
    by_cases hs : s.taskID = tid
    · have hcp : ((s :: rest).countP fun s2 => s2.taskID = tid)
          = (rest.countP fun s2 => s2.taskID = tid) + 1 :=
        List.countP_cons_of_pos _ _ (by simp [hs])
      rw [hcp] at h
      have h0 : (rest.countP fun s2 => s2.taskID = tid) = 0 := by omega
      simp only [removeStatusByID, if_pos hs]
      rw [hasStatus, List.any_eq_false]
      intro x hx
      simpa using List.countP_eq_zero.mp h0 x hx
    · have hcp : ((s :: rest).countP fun s2 => s2.taskID = tid)
          = (rest.countP fun s2 => s2.taskID = tid) :=
        List.countP_cons_of_neg _ _ (by simp [hs])
      rw [hcp] at h
      have hrest := ih h
      simp only [removeStatusByID, if_neg hs]
      rw [hasStatus, List.any_cons]
      rw [hasStatus] at hrest
      simp [hs, hrest]

/-- C1: when `performTask` returns `RunAgain::No` or the task has
`timeoutMS() < 1`, the worker removes the entry from the registry, removes
its status from the mirror (which afterwards no longer contains the
taskID), delivers the snapshot with `complete = true` via
`updateTaskStatus` exactly once, and destroys the entry exactly once. -/
theorem completion_spec (now : Int) (st : QueueState) (td : TaskDetails_lt)
    (runAgain : RunAgain)
    (hdone : td.task.timeoutMS < 1 ∨ runAgain = RunAgain.No)
    (hmem : st.tasks.count td = 1)
    (hstat : (st.taskStatuses.countP fun s => s.taskID = td.task.taskID) ≤ 1) :
    td ∉ (afterPerform now st td runAgain).1.tasks
      ∧ (afterPerform now st td runAgain).1.tasks.length + 1 = st.tasks.length
      ∧ (∀ x ∈ (afterPerform now st td runAgain).1.tasks, x ∈ st.tasks)
      ∧ hasStatus (afterPerform now st td runAgain).1.taskStatuses td.task.taskID = false
      ∧ (afterPerform now st td runAgain).2
          = [Event.updateTaskStatus { td.task.status with complete := true },
             Event.destroyEntry td.task.taskID]
      ∧ ((afterPerform now st td runAgain).2.count
            (Event.updateTaskStatus { td.task.status with complete := true }) = 1
          ∧ (afterPerform now st td runAgain).2.count
              (Event.destroyEntry td.task.taskID) = 1) := by
  obtain ⟨hout, hlen, hsub⟩ := eraseEntry_removes st.tasks st.nextTaskIndex td hmem
  have hst : hasStatus (removeStatusByID st.taskStatuses td.task.taskID) td.task.taskID
      = false := removeStatusByID_not_has st.taskStatuses td.task.taskID hstat
  unfold afterPerform
  rw [if_pos hdone]
  refine ⟨hout, hlen, hsub, hst, rfl, ?_, ?_⟩ <;> simp [List.count_cons]

/-- A one-entry queue used to witness C1's theorem. -/
def stC1 : QueueState :=
  { tasks := [⟨⟨4, false, false, 0, "m", ⟨4, "m", false, false, 2⟩⟩, 0, true⟩],
    nextTaskIndex := 1, workDone := true, waitFor := int64Max,
    taskStatuses := [⟨4, "m", false, false, 2⟩] }

/-- Witness for C1's theorem: a run-once task completes, the mirror no
longer contains its id, and the completion snapshot and destruction happen
exactly once. -/
theorem completion_spec_witness :
    hasStatus (afterPerform 0 stC1 ⟨⟨4, false, false, 0, "m", ⟨4, "m", false, false, 2⟩⟩, 0, true⟩
        RunAgain.No).1.taskStatuses 4 = false
      ∧ (afterPerform 0 stC1 ⟨⟨4, false, false, 0, "m", ⟨4, "m", false, false, 2⟩⟩, 0, true⟩
          RunAgain.No).2
        = [Event.updateTaskStatus ⟨4, "m", false, true, 2⟩, Event.destroyEntry 4] := by
  have h := completion_spec 0 stC1 ⟨⟨4, false, false, 0, "m", ⟨4, "m", false, false, 2⟩⟩, 0, true⟩
    RunAgain.No (Or.inr rfl) (by decide) (by decide)
  exact ⟨h.2.2.2.1, h.2.2.2.2.1⟩

/-- The guard of line 89: the housekeeping sweep handles an entry iff it is
not active and is paused or has a positive `nextRun`. -/
def visitCond (e : TaskDetails_lt) : Bool :=
  !e.active && (decide (0 < e.nextRun) || e.task.paused)

/-- The clamped whole-seconds countdown of lines 91–94:
`tpMax(int64_t(0), (nextRun - now)/1000)` with C++ truncating division. -/
def sweepSeconds (now : Int) (e : TaskDetails_lt) : Int :=
  max 0 ((e.nextRun - now).tdiv 1000)

/-- The message lines 100–105 write for one mirror entry. -/
def waitingMsg (mirrorPaused : Bool) (timeToRunSec : Int) (tmoMsg : String) : String :=
  if mirrorPaused then "Paused."
  else if timeToRunSec = 0 then "Waiting for thread."
  else tmoMsg ++ toString timeToRunSec

/-- Lines 95–110: find the first mirror entry with the id, rewrite its
message, and report whether one was found (the `changed` flag is set
whenever a matching entry exists, not only when the text differs). -/
def updateMirrorMessage : List TaskStatus → Int → Int → String → List TaskStatus × Bool
  | [], _, _, _ => ([], false)
  | s :: rest, tid, t, m =>
    if s.taskID = tid then
      ({ s with message := waitingMsg s.paused t m } :: rest, true)
    else
      let r := updateMirrorMessage rest tid t m
      (s :: r.1, r.2)

/-- The sweep of lines 87–112 over the registry: clamp a past `nextRun` to
0 and rewrite the matching mirror message for every handled entry,
accumulating the `changed` flag. -/
def updateWaitingMessagesGo (now : Int) :
    List TaskDetails_lt → List TaskStatus → Bool →
      List TaskDetails_lt × List TaskStatus × Bool
  | [], statuses, changed => ([], statuses, changed)
  | e :: rest, statuses, changed =>
    if visitCond e then
      let timeToRun := e.nextRun - now
      let e2 := if timeToRun < 0 then { e with nextRun := 0 } else e
      let t2 := max 0 (timeToRun.tdiv 1000)
      let r := updateMirrorMessage statuses e.task.taskID t2 e.task.timeoutMessage
      let r2 := updateWaitingMessagesGo now rest r.1 (changed || r.2)
      (e2 :: r2.1, r2.2)
    else
      let r2 := updateWaitingMessagesGo now rest statuses changed
      (e :: r2.1, r2.2)

/-- `TaskQueue::Private::updateWaitingMessages` (lines 81–117): the sweep
followed by a single `taskStatusChanged()` iff the flag was set. -/
def updateWaitingMessages (now : Int) (st : QueueState) : QueueState × List Event :=
  let r := updateWaitingMessagesGo now st.tasks st.taskStatuses false
  ({ st with tasks := r.1, taskStatuses := r.2.1 },
   if r.2.2 then [Event.notifyChanged] else [])

theorem updateMirrorMessage_hasStatus (statuses : List TaskStatus) (tid t : Int)
    (m : String) (tid2 : Int) :
    hasStatus (updateMirrorMessage statuses tid t m).1 tid2 = hasStatus statuses tid2 := by
  induction statuses with
  | nil => rfl
  | cons s rest ih =>
    by_cases hs : s.taskID = tid
    · simp [updateMirrorMessage, hs, hasStatus]
    · simp only [updateMirrorMessage, if_neg hs]
      simp only [hasStatus, List.any_cons] at ih ⊢
      rw [ih]

theorem updateMirrorMessage_changed (statuses : List TaskStatus) (tid t : Int)
    (m : String) :
    (updateMirrorMessage statuses tid t m).2 = hasStatus statuses tid := by
  induction statuses with
  | nil => rfl
  | cons s rest ih =>
    by_cases hs : s.taskID = tid
    · simp [updateMirrorMessage, hs, hasStatus]
    · simp only [updateMirrorMessage, if_neg hs, hasStatus, List.any_cons]
      rw [hasStatus] at ih
      simp [hs, ih]

theorem updateMirrorMessage_found (statuses : List TaskStatus) (tid t : Int)
    (m : String) (s : TaskStatus) (h : firstStatus statuses tid = some s) :
    firstStatus (updateMirrorMessage statuses tid t m).1 tid
      = some { s with message := waitingMsg s.paused t m } := by
  induction statuses with
  | nil => simp [firstStatus] at h
  | cons a rest ih =>
    by_cases ha : a.taskID = tid
    · simp only [firstStatus, if_pos ha] at h
      cases h
      simp [updateMirrorMessage, ha, firstStatus]
    · simp only [firstStatus, if_neg ha] at h
      simp only [updateMirrorMessage, if_neg ha, firstStatus, if_neg ha]
      exact ih h

theorem updateMirrorMessage_frame (statuses : List TaskStatus) (tid t : Int)
    (m : String) (tid2 : Int) (h : tid2 ≠ tid) :
    firstStatus (updateMirrorMessage statuses tid t m).1 tid2
      = firstStatus statuses tid2 := by
  induction statuses with
  | nil => rfl
  | cons a rest ih =>
    by_cases ha : a.taskID = tid
    · have ha2 : ¬ (a.taskID = tid2) := fun hc => h (hc.symm.trans ha)
      have hts : ¬ ((tid : Int) = tid2) := fun hc => h hc.symm
      simp [updateMirrorMessage, ha, firstStatus, ha2, hts]
    · by_cases ha2 : a.taskID = tid2
      · simp [updateMirrorMessage, ha, firstStatus, ha2, h]
      · simp [updateMirrorMessage, ha, firstStatus, ha2, ih]

theorem updateWaitingMessagesGo_hasStatus (now : Int) (l : List TaskDetails_lt)
    (statuses : List TaskStatus) (changed : Bool) (tid : Int) :
    hasStatus (updateWaitingMessagesGo now l statuses changed).2.1 tid
      = hasStatus statuses tid := by
  induction l generalizing statuses changed with
  | nil => rfl
  | cons e rest ih =>
    by_cases hv : visitCond e
    · simp only [updateWaitingMessagesGo, if_pos hv]
      rw [ih, updateMirrorMessage_hasStatus]
    · simp only [updateWaitingMessagesGo, if_neg hv]
      exact ih statuses changed

theorem updateWaitingMessagesGo_changed (now : Int) (l : List TaskDetails_lt)
    (statuses : List TaskStatus) (changed : Bool) :
    (updateWaitingMessagesGo now l statuses changed).2.2
      = (changed || l.any fun e => visitCond e && hasStatus statuses e.task.taskID) := by
  induction l generalizing statuses changed with
  | nil => simp [updateWaitingMessagesGo]
  | cons e rest ih =>
    by_cases hv : visitCond e
    · simp only [updateWaitingMessagesGo, if_pos hv]
      rw [ih]
      rw [updateMirrorMessage_changed]
      simp only [List.any_cons, hv, Bool.true_and]
      have hfun : (fun e2 : TaskDetails_lt => visitCond e2 &&
            hasStatus (updateMirrorMessage statuses e.task.taskID
              (max 0 ((e.nextRun - now).tdiv 1000)) e.task.timeoutMessage).1 e2.task.taskID)
          = fun e2 : TaskDetails_lt => visitCond e2 && hasStatus statuses e2.task.taskID :=
        funext fun e2 => by rw [updateMirrorMessage_hasStatus]
      rw [hfun]
      cases changed <;> cases h1 : hasStatus statuses e.task.taskID <;> simp [h1, Bool.or_assoc]
    · simp only [updateWaitingMessagesGo, if_neg hv]
      rw [ih]
      simp only [List.any_cons, Bool.eq_false_iff.mpr hv]
      simp

theorem updateWaitingMessagesGo_frame_status (now : Int) (l : List TaskDetails_lt)
    (statuses : List TaskStatus) (changed : Bool) (tid : Int)
    (h : ∀ e ∈ l, e.task.taskID ≠ tid) :
    firstStatus (updateWaitingMessagesGo now l statuses changed).2.1 tid
      = firstStatus statuses tid := by
  induction l generalizing statuses changed with
  | nil => rfl
  | cons e rest ih =>
    have hrest : ∀ e2 ∈ rest, e2.task.taskID ≠ tid :=
      fun e2 he2 => h e2 (List.mem_cons_of_mem e he2)
    by_cases hv : visitCond e
    · simp only [updateWaitingMessagesGo, if_pos hv]
      rw [ih _ _ hrest, updateMirrorMessage_frame]
      exact fun hc => h e (List.mem_cons_self e rest) hc.symm
    · simp only [updateWaitingMessagesGo, if_neg hv]
      exact ih statuses changed hrest

theorem updateWaitingMessagesGo_found (now : Int) (l : List TaskDetails_lt)
    (statuses : List TaskStatus) (changed : Bool)
    (hdist : l.Pairwise fun a b => a.task.taskID ≠ b.task.taskID)
    (e : TaskDetails_lt) (hmem : e ∈ l) (hv : visitCond e = true)
    (s : TaskStatus) (hfs : firstStatus statuses e.task.taskID = some s) :
    firstStatus (updateWaitingMessagesGo now l statuses changed).2.1 e.task.taskID
      = some { s with message := waitingMsg s.paused (sweepSeconds now e) e.task.timeoutMessage } := by
  induction l generalizing statuses changed with
  | nil => simp at hmem
  | cons a rest ih =>
    rcases List.mem_cons.mp hmem with rfl | hmem2
    · simp only [updateWaitingMessagesGo, if_pos hv]
      have hne : ∀ e2 ∈ rest, e2.task.taskID ≠ e.task.taskID :=
        fun e2 he2 => Ne.symm ((List.pairwise_cons.mp hdist).1 e2 he2)
      rw [updateWaitingMessagesGo_frame_status now rest _ _ _ hne]
      exact updateMirrorMessage_found statuses _ _ _ s hfs
    · have hht : a.task.taskID ≠ e.task.taskID :=
        (List.pairwise_cons.mp hdist).1 e hmem2
      have hdist2 : rest.Pairwise fun a b => a.task.taskID ≠ b.task.taskID :=
        (List.pairwise_cons.mp hdist).2
      by_cases hva : visitCond a
      · simp only [updateWaitingMessagesGo, if_pos hva]
        refine ih _ _ hdist2 hmem2 ?_
        rw [updateMirrorMessage_frame]
        · exact hfs
        · exact fun hc => hht hc.symm
      · simp only [updateWaitingMessagesGo, if_neg hva]
        exact ih _ _ hdist2 hmem2 hfs

/-- C3 (amended): the recomputed message is "Paused." for a paused mirror
entry, "Waiting for thread." when due now, and otherwise `timeoutMessage()`
followed by the remaining whole seconds; and the ChangeNotifier fires
exactly once after the sweep iff some handled entry has a matching mirror
entry — regardless of whether the message text actually changed. -/
theorem housekeeping_messages_spec (now : Int) (st : QueueState)
    (hdist : st.tasks.Pairwise fun a b => a.task.taskID ≠ b.task.taskID) :
    ((updateWaitingMessages now st).2 = [Event.notifyChanged]
        ∨ (updateWaitingMessages now st).2 = [])
      ∧ ((updateWaitingMessages now st).2 = [Event.notifyChanged]
          ↔ ∃ e ∈ st.tasks, visitCond e = true
              ∧ hasStatus st.taskStatuses e.task.taskID = true)
      ∧ (∀ e ∈ st.tasks, visitCond e = true →
          ∀ s, firstStatus st.taskStatuses e.task.taskID = some s →
            firstStatus (updateWaitingMessages now st).1.taskStatuses e.task.taskID
              = some { s with message := waitingMsg s.paused (sweepSeconds now e) e.task.timeoutMessage }) := by
  have hch := updateWaitingMessagesGo_changed now st.tasks st.taskStatuses false
  refine ⟨?_, ?_, ?_⟩
  · by_cases hb : (updateWaitingMessagesGo now st.tasks st.taskStatuses false).2.2
    · exact Or.inl (by simp [updateWaitingMessages, hb])
    · exact Or.inr (by simp [updateWaitingMessages, hb])
  · constructor
    · intro h
      have hb : (updateWaitingMessagesGo now st.tasks st.taskStatuses false).2.2 = true := by
        by_contra hb2
        simp [updateWaitingMessages, Bool.eq_false_iff.mpr hb2] at h
      rw [hch] at hb
      simp only [Bool.false_or, List.any_eq_true, Bool.and_eq_true] at hb
      obtain ⟨e, hmem, hv, hhas⟩ := hb
      exact ⟨e, hmem, hv, hhas⟩
    · intro ⟨e, hmem, hv, hhas⟩
      have hb : (updateWaitingMessagesGo now st.tasks st.taskStatuses false).2.2 = true := by
        rw [hch]
        simp only [Bool.false_or, List.any_eq_true, Bool.and_eq_true]
        exact ⟨e, hmem, hv, hhas⟩
      simp [updateWaitingMessages, hb]
  · intro e hmem hv s hfs
    exact updateWaitingMessagesGo_found now st.tasks st.taskStatuses false hdist e hmem hv s hfs

/-- A paused task whose mirror entry already reads "Paused.": the sweep
rewrites the same text and still reports a change. -/
def stC3x : QueueState :=
  { tasks := [⟨⟨1, true, false, 0, "", ⟨1, "Paused.", true, false, 0⟩⟩, 0, false⟩],
    nextTaskIndex := 0, workDone := false, waitFor := int64Max,
    taskStatuses := [⟨1, "Paused.", true, false, 0⟩] }

/-- Counterexample to C3 as stated: the sweep leaves every mirror message
textually unchanged, yet the ChangeNotifier fires. -/
theorem housekeeping_notify_without_text_change :
    (updateWaitingMessages 100 stC3x).1.taskStatuses = stC3x.taskStatuses
      ∧ (updateWaitingMessages 100 stC3x).2 = [Event.notifyChanged] := by
  constructor <;> rfl

/-- A waiting task used to witness C3's amended theorem. -/
def stC3 : QueueState :=
  { tasks := [⟨⟨2, false, false, 5000, "Run in ", ⟨2, "x", false, false, 0⟩⟩, 7000, false⟩],
    nextTaskIndex := 0, workDone := false, waitFor := int64Max,
    taskStatuses := [⟨2, "x", false, false, 0⟩] }

/-- Witness for C3's amended theorem. -/
theorem housekeeping_messages_spec_witness :
    (updateWaitingMessages 1000 stC3).2 = [Event.notifyChanged] := by
  have h := housekeeping_messages_spec 1000 stC3 (by simp [stC3])
  exact h.2.1.mpr ⟨⟨⟨2, false, false, 5000, "Run in ", ⟨2, "x", false, false, 0⟩⟩, 7000, false⟩,
    by simp [stC3], by decide, by decide⟩

theorem updateWaitingMessagesGo_tasks (now : Int) (l : List TaskDetails_lt)
    (statuses : List TaskStatus) (changed : Bool) :
    (updateWaitingMessagesGo now l statuses changed).1
      = l.map fun e =>
          if visitCond e = true ∧ e.nextRun < now then { e with nextRun := 0 } else e := by
  induction l generalizing statuses changed with
  | nil => rfl
  | cons e rest ih =>
    by_cases hv : visitCond e
    · simp only [updateWaitingMessagesGo, if_pos hv, List.map_cons]
      rw [ih]
      by_cases hpast : e.nextRun - now < 0
      · rw [if_pos hpast, if_pos ⟨hv, by omega⟩]
      · rw [if_neg hpast, if_neg fun hc => hpast (by omega)]
    · simp only [updateWaitingMessagesGo, if_neg hv, List.map_cons]
      rw [ih]
      rw [if_neg fun hc => hv hc.1]

/-- C10: the housekeeping sweep mutates the registry as well as the mirror:
every handled entry (non-active, and paused or with positive `nextRun`)
whose `nextRun` lies in the past has it reset to 0, and every other
registry field of every entry — and the rest of the queue state — is left
unchanged. -/
theorem housekeeping_frame (now : Int) (st : QueueState) :
    (updateWaitingMessages now st).1.tasks
        = st.tasks.map (fun e =>
            if visitCond e = true ∧ e.nextRun < now then { e with nextRun := 0 } else e)
      ∧ (updateWaitingMessages now st).1.nextTaskIndex = st.nextTaskIndex
      ∧ (updateWaitingMessages now st).1.workDone = st.workDone
      ∧ (updateWaitingMessages now st).1.waitFor = st.waitFor :=
  ⟨updateWaitingMessagesGo_tasks now st.tasks st.taskStatuses false, rfl, rfl, rfl⟩

/-- An entry a worker may consider running: neither active nor paused
(lines 139–143 skip it otherwise, before `waitFor` is touched). -/
def eligibleEntry (e : TaskDetails_lt) : Bool :=
  !e.active && !e.task.paused

/-- One iteration's handling of the entry at the cursor (lines 134–197):
advance the cursor; skip active or paused entries; fold the entry's
`timeToRun` into `waitFor`; skip entries not yet due; otherwise mark the
entry active, run `performTask` (its result supplied by `oracle`), and do
the after-run bookkeeping of `afterPerform`. -/
def processEntry (now : Int) (oracle : Int → RunAgain) (st : QueueState) :
    QueueState × List Event :=
  match st.tasks.get? st.nextTaskIndex with
  | none => (st, [])
  | some td =>
    let st1 := { st with nextTaskIndex := st.nextTaskIndex + 1 }
    if td.active then (st1, [])
    else if td.task.paused then (st1, [])
    else
      let timeToRun := td.nextRun - now
      let st2 := if timeToRun < st1.waitFor then { st1 with waitFor := timeToRun } else st1
      if 0 < timeToRun then (st2, [])
      else
        let tdA := { td with active := true }
        let st3 := { st2 with tasks := replaceFirst st2.tasks td tdA, workDone := true }
        let r := afterPerform now st3 tdA (oracle td.task.taskID)
        (r.1, Event.performTask td.task.taskID :: r.2)

/-- Lines 199–210: once the cursor has passed the end of the list, reset it,
take and reset `waitFor`, and either block on the wait condition for the
taken duration (`some w`, when no work was done) or clear `workDone` and
sweep again without sleeping (`none`). -/
def wrapSweep (st : QueueState) : QueueState × Option Int :=
  let w := st.waitFor
  let st1 := { st with nextTaskIndex := 0, waitFor := int64Max }
  if st.workDone then ({ st1 with workDone := false }, none)
  else (st1, some w)

/-- The worker loop of lines 129–211 from the current cursor position up to
and including the wrap at the end of the list: one dispatch sweep.  `fuel`
bounds the number of iterations; `tasks.length - nextTaskIndex` strictly
decreases at each one. -/
def sweepGo : Nat → Int → (Int → RunAgain) → QueueState →
    QueueState × Option Int × List Event
  | 0, _, _, st => (st, none, [])
  | fuel + 1, now, oracle, st =>
    if st.nextTaskIndex < st.tasks.length then
      let r := processEntry now oracle st
      let r2 := sweepGo fuel now oracle r.1
      (r2.1, r2.2.1, r.2 ++ r2.2.2)
    else
      let r2 := wrapSweep st
      (r2.1, r2.2, [])

/-- Whether an event trace records a `performTask` invocation. -/
def hasPerform (evs : List Event) : Bool :=
  evs.any fun ev =>
    match ev with
    | Event.performTask _ => true
    | _ => false

theorem replaceFirst_length (l : List TaskDetails_lt) (old new : TaskDetails_lt) :
    (replaceFirst l old new).length = l.length := by
  induction l with
  | nil => rfl
  | cons e rest ih =>
    by_cases he : e = old <;> simp [replaceFirst, he, ih]

theorem eraseEntry_measure (l : List TaskDetails_lt) (c : Nat) (td : TaskDetails_lt)
    (h : c ≤ l.length) :
    (eraseEntry l c td).2 ≤ (eraseEntry l c td).1.length
      ∧ (eraseEntry l c td).1.length - (eraseEntry l c td).2 ≤ l.length - c := by
  cases hfind : findIndexOfEntry l td with
  | none =>
    simp [eraseEntry, hfind]
    omega
  | some i =>
    obtain ⟨hi, -⟩ := findIndexOfEntry_get l td i hfind
    have hlen := List.length_eraseIdx_add_one hi
    simp only [eraseEntry, hfind]
    by_cases hic : i < c
    · simp only [if_pos hic]
      omega
    · simp only [if_neg hic]
      omega

theorem afterPerform_workDone (now : Int) (st : QueueState) (td : TaskDetails_lt)
    (ra : RunAgain) : (afterPerform now st td ra).1.workDone = st.workDone := by
  unfold afterPerform
  split_ifs <;> rfl

theorem afterPerform_measure (now : Int) (st : QueueState) (td : TaskDetails_lt)
    (ra : RunAgain) (h : st.nextTaskIndex ≤ st.tasks.length) :
    (afterPerform now st td ra).1.nextTaskIndex ≤ (afterPerform now st td ra).1.tasks.length
      ∧ (afterPerform now st td ra).1.tasks.length
          - (afterPerform now st td ra).1.nextTaskIndex
        ≤ st.tasks.length - st.nextTaskIndex := by
  unfold afterPerform
  split_ifs with hdone h2
  · simpa using eraseEntry_measure st.tasks st.nextTaskIndex td h
  · simp [replaceFirst_length]
    omega
  · simp [replaceFirst_length]
    omega

theorem sweepGo_spec (fuel : Nat) (now : Int) (oracle : Int → RunAgain) :
    ∀ st : QueueState, st.nextTaskIndex ≤ st.tasks.length →
      st.tasks.length - st.nextTaskIndex < fuel →
      (sweepGo fuel now oracle st).1.nextTaskIndex = 0
      ∧ ((sweepGo fuel now oracle st).2.1 = none
          ↔ (st.workDone = true ∨ hasPerform (sweepGo fuel now oracle st).2.2 = true))
      ∧ (∀ w, (sweepGo fuel now oracle st).2.1 = some w →
          st.workDone = false
          ∧ hasPerform (sweepGo fuel now oracle st).2.2 = false
          ∧ (sweepGo fuel now oracle st).1.tasks = st.tasks
          ∧ w = List.foldl min st.waitFor
              (((st.tasks.drop st.nextTaskIndex).filter eligibleEntry).map
                fun e => e.nextRun - now)
          ∧ ∀ e ∈ st.tasks.drop st.nextTaskIndex, eligibleEntry e = true →
              0 < e.nextRun - now) := by
  induction fuel with
  | zero =>
    intro st hc hf
    omega
  | succ fuel ih =>
    intro st hc hf
    by_cases hlt : st.nextTaskIndex < st.tasks.length
    case neg =>
      have hdrop : st.tasks.drop st.nextTaskIndex = [] :=
        List.drop_eq_nil_of_le (by omega)
      simp only [sweepGo, if_neg hlt]
      by_cases hw : st.workDone
      · simp [wrapSweep, hw, hasPerform]
      · simp [wrapSweep, hw, hasPerform, hdrop]
    case pos =>
      have hget : st.tasks.get? st.nextTaskIndex
          = some (st.tasks.get ⟨st.nextTaskIndex, hlt⟩) := List.get?_eq_get hlt
      generalize htd : st.tasks.get ⟨st.nextTaskIndex, hlt⟩ = td at hget
      have hdropc : st.tasks.drop st.nextTaskIndex
          = td :: st.tasks.drop (st.nextTaskIndex + 1) := by
        rw [List.drop_eq_getElem_cons hlt, ← htd, List.get_eq_getElem]
      by_cases ha : td.active = true
      · -- skip: already active
        simp only [sweepGo, if_pos hlt, processEntry, hget, if_pos ha]
        obtain ⟨ih1, ih2, ih3⟩ :=
          ih { st with nextTaskIndex := st.nextTaskIndex + 1 } (by simpa using hlt)
            (by simp; omega)
        refine ⟨ih1, by simpa using ih2, ?_⟩
        intro w hsw
        obtain ⟨ihw1, ihw2, ihw3, ihw4, ihw5⟩ := ih3 w hsw
        refine ⟨ihw1, by simpa using ihw2, by simpa using ihw3, ?_, ?_⟩
        · rw [hdropc]
          simpa [eligibleEntry, ha] using ihw4
        · rw [hdropc]
          intro e hmem he
          rcases List.mem_cons.mp hmem with rfl | hmem2
          · simp [eligibleEntry, ha] at he
          · exact ihw5 e (by simpa using hmem2) he
      · have ha2 : td.active = false := by
          revert ha
          cases td.active <;> simp
        by_cases hp : td.task.paused = true
        · -- skip: paused
          simp only [sweepGo, if_pos hlt, processEntry, hget, if_neg ha, if_pos hp]
          obtain ⟨ih1, ih2, ih3⟩ :=
            ih { st with nextTaskIndex := st.nextTaskIndex + 1 } (by simpa using hlt)
              (by simp; omega)
          refine ⟨ih1, by simpa using ih2, ?_⟩
          intro w hsw
          obtain ⟨ihw1, ihw2, ihw3, ihw4, ihw5⟩ := ih3 w hsw
          refine ⟨ihw1, by simpa using ihw2, by simpa using ihw3, ?_, ?_⟩
          · rw [hdropc]
            simpa [eligibleEntry, hp] using ihw4
          · rw [hdropc]
            intro e hmem he
            rcases List.mem_cons.mp hmem with rfl | hmem2
            · simp [eligibleEntry, hp] at he
            · exact ihw5 e (by simpa using hmem2) he
        · have hp2 : td.task.paused = false := by
            revert hp
            cases td.task.paused <;> simp
          have helig : eligibleEntry td = true := by
            simp [eligibleEntry, ha2, hp2]
          by_cases ht : 0 < td.nextRun - now
          · -- skip: not yet due (after folding timeToRun into waitFor)
            by_cases hw2 : td.nextRun - now < st.waitFor
            · simp only [sweepGo, if_pos hlt, processEntry, hget, if_neg ha, if_neg hp,
                if_pos (show td.nextRun - now
                    < ({ st with nextTaskIndex := st.nextTaskIndex + 1 } : QueueState).waitFor
                  from hw2), if_pos ht]
              obtain ⟨ih1, ih2, ih3⟩ :=
                ih { st with
                      nextTaskIndex := st.nextTaskIndex + 1
                      waitFor := td.nextRun - now } (by simpa using hlt) (by simp; omega)
              refine ⟨ih1, by simpa using ih2, ?_⟩
              intro w hsw
              obtain ⟨ihw1, ihw2, ihw3, ihw4, ihw5⟩ := ih3 w hsw
              refine ⟨ihw1, by simpa using ihw2, by simpa using ihw3, ?_, ?_⟩
              · rw [hdropc, List.filter_cons_of_pos helig, List.map_cons, List.foldl_cons,
                  min_eq_right hw2.le]
                simpa using ihw4
              · rw [hdropc]
                intro e hmem he
                rcases List.mem_cons.mp hmem with rfl | hmem2
                · exact ht
                · exact ihw5 e (by simpa using hmem2) he
            · simp only [sweepGo, if_pos hlt, processEntry, hget, if_neg ha, if_neg hp,
                if_neg (show ¬ (td.nextRun - now
                    < ({ st with nextTaskIndex := st.nextTaskIndex + 1 } : QueueState).waitFor)
                  from hw2), if_pos ht]
              obtain ⟨ih1, ih2, ih3⟩ :=
                ih { st with nextTaskIndex := st.nextTaskIndex + 1 } (by simpa using hlt)
                  (by simp; omega)
              refine ⟨ih1, by simpa using ih2, ?_⟩
              intro w hsw
              obtain ⟨ihw1, ihw2, ihw3, ihw4, ihw5⟩ := ih3 w hsw
              refine ⟨ihw1, by simpa using ihw2, by simpa using ihw3, ?_, ?_⟩
              · rw [hdropc, List.filter_cons_of_pos helig, List.map_cons, List.foldl_cons,
                  min_eq_left (by omega : st.waitFor ≤ td.nextRun - now)]
                simpa using ihw4
              · rw [hdropc]
                intro e hmem he
                rcases List.mem_cons.mp hmem with rfl | hmem2
                · exact ht
                · exact ihw5 e (by simpa using hmem2) he
          · -- execute the task
            by_cases hw2 : td.nextRun - now < st.waitFor
            all_goals
              simp only [sweepGo, if_pos hlt, processEntry, hget, if_neg ha, if_neg hp,
                if_neg ht]
            · simp only
                [if_pos (show td.nextRun - now
                    < ({ st with nextTaskIndex := st.nextTaskIndex + 1 } : QueueState).waitFor
                  from hw2)]
              have hm := afterPerform_measure now
                { st with
                    tasks := replaceFirst st.tasks td { td with active := true },
                    nextTaskIndex := st.nextTaskIndex + 1,
                    waitFor := td.nextRun - now, workDone := true }
                { td with active := true } (oracle td.task.taskID)
                (by simp [replaceFirst_length]; omega)
              obtain ⟨ih1, ih2, ih3⟩ := ih _ hm.1
                (by
                  have h2 := hm.2
                  simp [replaceFirst_length] at h2
                  omega)
              have hwd : (afterPerform now
                  { st with
                      tasks := replaceFirst st.tasks td { td with active := true },
                      nextTaskIndex := st.nextTaskIndex + 1,
                      waitFor := td.nextRun - now, workDone := true }
                  { td with active := true } (oracle td.task.taskID)).1.workDone = true :=
                afterPerform_workDone now _ _ _
              have hnone := ih2.mpr (Or.inl hwd)
              refine ⟨ih1, ?_, ?_⟩
              · simp [hnone, hasPerform]
              · intro w hsw
                rw [hnone] at hsw
                simp at hsw
            · simp only
                [if_neg (show ¬ (td.nextRun - now
                    < ({ st with nextTaskIndex := st.nextTaskIndex + 1 } : QueueState).waitFor)
                  from hw2)]
              have hm := afterPerform_measure now
                { st with
                    tasks := replaceFirst st.tasks td { td with active := true },
                    nextTaskIndex := st.nextTaskIndex + 1, workDone := true }
                { td with active := true } (oracle td.task.taskID)
                (by simp [replaceFirst_length]; omega)
              obtain ⟨ih1, ih2, ih3⟩ := ih _ hm.1
                (by
                  have h2 := hm.2
                  simp [replaceFirst_length] at h2
                  omega)
              have hwd : (afterPerform now
                  { st with
                      tasks := replaceFirst st.tasks td { td with active := true },
                      nextTaskIndex := st.nextTaskIndex + 1, workDone := true }
                  { td with active := true } (oracle td.task.taskID)).1.workDone = true :=
                afterPerform_workDone now _ _ _
              have hnone := ih2.mpr (Or.inl hwd)
              refine ⟨ih1, ?_, ?_⟩
              · simp [hnone, hasPerform]
              · intro w hsw
                rw [hnone] at hsw
                simp at hsw

/-- C6: in a dispatch sweep a worker skips active or paused entries without
touching `waitFor`; over the remaining visited entries it records the
minimum `timeToRun = nextRun - now` (folded from `INT64_MAX`) as `waitFor`
and skips those with positive `timeToRun`; at the end of the list the
cursor is reset to 0; and the worker blocks on the wait condition for the
recorded `waitFor` iff no task was executed during the sweep, otherwise it
re-sweeps immediately without sleeping. -/
theorem dispatch_sweep_spec (now : Int) (oracle : Int → RunAgain) (st : QueueState)
    (h0 : st.nextTaskIndex = 0) (hw : st.workDone = false) (hwf : st.waitFor = int64Max) :
    (sweepGo (st.tasks.length + 1) now oracle st).1.nextTaskIndex = 0
    ∧ ((sweepGo (st.tasks.length + 1) now oracle st).2.1 = none
        ↔ hasPerform (sweepGo (st.tasks.length + 1) now oracle st).2.2 = true)
    ∧ (∀ w, (sweepGo (st.tasks.length + 1) now oracle st).2.1 = some w →
        hasPerform (sweepGo (st.tasks.length + 1) now oracle st).2.2 = false
        ∧ (sweepGo (st.tasks.length + 1) now oracle st).1.tasks = st.tasks
        ∧ w = List.foldl min int64Max
            ((st.tasks.filter eligibleEntry).map fun e => e.nextRun - now)
        ∧ ∀ e ∈ st.tasks, eligibleEntry e = true → 0 < e.nextRun - now) := by
  obtain ⟨h1, h2, h3⟩ :=
    sweepGo_spec (st.tasks.length + 1) now oracle st (by omega) (by omega)
  refine ⟨h1, ?_, ?_⟩
  · rw [hw] at h2
    simpa using h2
  · intro w hsw
    obtain ⟨-, hw2, hw3, hw4, hw5⟩ := h3 w hsw
    refine ⟨hw2, hw3, ?_, ?_⟩
    · rw [hwf, h0] at hw4
      simpa using hw4
    · intro e he hel
      exact hw5 e (by simpa [h0] using he) hel

/-- The oracle used by C6's witness (never consulted there). -/
def oracleC6 : Int → RunAgain := fun _ => RunAgain.Yes

/-- A queue with one entry due 500 ms in the future, witnessing C6. -/
def stC6 : QueueState :=
  { tasks := [⟨⟨3, false, false, 100, "t", ⟨3, "t", false, false, 0⟩⟩, 1500, false⟩],
    nextTaskIndex := 0, workDone := false, waitFor := int64Max,
    taskStatuses := [⟨3, "t", false, false, 0⟩] }

/-- Witness for C6's theorem: the sweep sleeps (for 500 ms), performed
nothing, and left the registry unchanged. -/
theorem dispatch_sweep_spec_witness :
    hasPerform (sweepGo (stC6.tasks.length + 1) 1000 oracleC6 stC6).2.2 = false
      ∧ (sweepGo (stC6.tasks.length + 1) 1000 oracleC6 stC6).1.tasks = stC6.tasks := by
  have h := dispatch_sweep_spec 1000 oracleC6 stC6 rfl rfl rfl
  have h2 := h.2.2 500 (by rfl)
  exact ⟨h2.1, h2.2.1⟩

/-- Global state of the interleaved execution for the concurrency claims:
the registry abstracted to `(taskID, active)` pairs, the task each worker is
currently inside `performTask` of, the `finish` flag, and histories of
submitted / cancelled / destroyed ids, the ids live when the destructor set
`finish`, and whether the destructor has reaped the registry. -/
structure SysState where
  live : List (Int × Bool)
  performing : Nat → Option Int
  finish : Bool
  submitted : List Int
  cancelled : List Int
  destroyed : List Int
  atFinishLive : List Int
  shutdownDone : Bool

/-- State of a freshly constructed `TaskQueue`. -/
def initSys : SysState :=
  { live := [], performing := fun _ => none, finish := false, submitted := [],
    cancelled := [], destroyed := [], atFinishLive := [], shutdownDone := false }

/-- One atomic lock-held region of `TaskQueue.cpp`.  `submit` is `addTask`
(taskIDs are process-unique, hence the freshness premise); `startPerform` is
lines 134–155: under the registry mutex a worker claims an entry that is
inactive (and due), sets `active = true`, releases the lock and enters
`performTask`; `finishRepeat` and `finishComplete` are the two branches of
lines 160–196 after `performTask` returns; `setFinish` is lines 247–253 of
the destructor (set the flag, call `cancelTask()` on every registry entry,
wake all); `reap` is lines 261–265, enabled only once every worker has gone
idle, which the destructor guarantees by waiting on
`threadFinishedWaitCondition` until `numberOfActiveTaskThreads` is zero. -/
inductive Step : SysState → SysState → Prop where
  | submit (s : SysState) (tid : Int) :
      s.finish = false → tid ∉ s.submitted →
      Step s { s with live := s.live ++ [(tid, false)], submitted := s.submitted ++ [tid] }
  | startPerform (s : SysState) (w : Nat) (tid : Int) (i : Nat) :
      s.performing w = none → s.live.get? i = some (tid, false) →
      Step s { s with live := s.live.set i (tid, true),
                      performing := fun w2 => if w2 = w then some tid else s.performing w2 }
  | finishRepeat (s : SysState) (w : Nat) (tid : Int) (i : Nat) :
      s.performing w = some tid → s.live.get? i = some (tid, true) →
      Step s { s with live := s.live.set i (tid, false),
                      performing := fun w2 => if w2 = w then none else s.performing w2 }
  | finishComplete (s : SysState) (w : Nat) (tid : Int) (i : Nat) :
      s.performing w = some tid → s.live.get? i = some (tid, true) →
      Step s { s with live := s.live.eraseIdx i, destroyed := s.destroyed ++ [tid],
                      performing := fun w2 => if w2 = w then none else s.performing w2 }
  | setFinish (s : SysState) :
      s.finish = false →
      Step s { s with finish := true,
                      cancelled := s.cancelled ++ s.live.map Prod.fst,
                      atFinishLive := s.live.map Prod.fst }
  | reap (s : SysState) :
      s.finish = true → (∀ w, s.performing w = none) →
      Step s { s with live := [], destroyed := s.destroyed ++ s.live.map Prod.fst,
                      shutdownDone := true }

/-- Reachability from the freshly constructed queue. -/
def Reach (s : SysState) : Prop :=
  Relation.ReflTransGen Step initSys s

/-- The inductive invariant of the interleaved system. -/
def SysInv (s : SysState) : Prop :=
  (∀ w tid, s.performing w = some tid → (tid, true) ∈ s.live)
  ∧ (∀ w1 w2 tid, s.performing w1 = some tid → s.performing w2 = some tid → w1 = w2)
  ∧ (s.live.map Prod.fst).Nodup
  ∧ s.submitted.Nodup
  ∧ ((s.live.map Prod.fst) ++ s.destroyed).Perm s.submitted
  ∧ (s.finish = true → ∀ tid ∈ s.live.map Prod.fst, tid ∈ s.cancelled)
  ∧ (s.finish = true → ∀ tid ∈ s.atFinishLive, tid ∈ s.cancelled)
  ∧ (s.shutdownDone = true → s.live = [] ∧ s.finish = true)

theorem set_get?_self {α : Type} (l : List α) (i : Nat) (a : α)
    (h : l.get? i = some a) : l.set i a = l := by
  induction l generalizing i with
  | nil => rfl
  | cons x rest ih =>
    cases i with
    | zero =>
      simp [List.get?] at h
      simp [List.set, h]
    | succ j =>
      simp only [List.get?] at h
      simp [List.set, ih j h]

theorem mem_set_of_ne {α : Type} {l : List α} {b a c : α} {i : Nat}
    (hb : b ∈ l) (hi : l.get? i = some a) (hne : b ≠ a) : b ∈ l.set i c := by
  obtain ⟨j, hj⟩ := List.get?_of_mem hb
  have hji : j ≠ i := by
    intro hcontra
    rw [hcontra, hi] at hj
    exact hne (Option.some.inj hj).symm
  have : (l.set i c).get? j = some b := by
    rw [List.get?_set_ne c l (fun hx => hji hx.symm)]
    exact hj
  exact List.get?_mem this

theorem mem_eraseIdx_of_ne {α : Type} {l : List α} {b a : α} {i : Nat}
    (hb : b ∈ l) (hi : l.get? i = some a) (hne : b ≠ a) : b ∈ l.eraseIdx i := by
  obtain ⟨j, hj⟩ := List.get?_of_mem hb
  have hji : j ≠ i := by
    intro hcontra
    rw [hcontra, hi] at hj
    exact hne (Option.some.inj hj).symm
  exact List.mem_eraseIdx_iff_get?.mpr ⟨j, hji, hj⟩

theorem perm_cons_eraseIdx {α : Type} {l : List α} {a : α} {i : Nat}
    (h : l.get? i = some a) : l.Perm (a :: l.eraseIdx i) := by
  obtain ⟨hi, hget⟩ := List.get?_eq_some.mp h
  have hsplit : l = l.take i ++ a :: l.drop (i + 1) := by
    conv_lhs => rw [← List.take_append_drop i l]
    rw [List.drop_eq_getElem_cons hi]
    rw [List.get_eq_getElem] at hget
    rw [hget]
  have herase : l.eraseIdx i = l.take i ++ l.drop (i + 1) :=
    List.eraseIdx_eq_take_drop_succ l i
  rw [herase]
  conv_lhs => rw [hsplit]
  exact List.perm_middle

theorem map_eraseIdx {α β : Type} (f : α → β) (l : List α) (i : Nat) :
    (l.eraseIdx i).map f = (l.map f).eraseIdx i := by
  rw [List.eraseIdx_eq_take_drop_succ, List.eraseIdx_eq_take_drop_succ,
    List.map_append, List.map_take, List.map_drop]

/-- Indices of entries whose ids collide are equal (given id-nodup). -/
theorem live_index_unique {l : List (Int × Bool)} (hnd : (l.map Prod.fst).Nodup)
    {i j : Nat} {p q : Int × Bool} (hi : l.get? i = some p) (hj : l.get? j = some q)
    (hfst : p.1 = q.1) : i = j := by
  have hi2 : (l.map Prod.fst).get? i = some p.1 := by
    rw [List.get?_map, hi]
    rfl
  have hj2 : (l.map Prod.fst).get? j = some q.1 := by
    rw [List.get?_map, hj]
    rfl
  have hil : i < (l.map Prod.fst).length := by
    rw [List.length_map]
    exact (List.get?_eq_some.mp hi).1
  exact List.get?_inj hil hnd (by rw [hi2, hj2, hfst])

theorem sysInv_step {s s' : SysState} (hstep : Step s s') (hinv : SysInv s) : SysInv s' := by
  obtain ⟨ha, hmx, hnd, hsub, hperm, hcl, hcf, hsd⟩ := hinv
  cases hstep with
  | submit tid hfin hfresh =>
    refine ⟨?_, hmx, ?_, ?_, ?_, ?_, ?_, ?_⟩
    · intro w tid2 hp
      exact List.mem_append_left _ (ha w tid2 hp)
    · show ((s.live ++ [(tid, false)]).map Prod.fst).Nodup
      rw [List.map_append, List.nodup_append]
      refine ⟨hnd, by simp, ?_⟩
      intro x hx hx2
      simp at hx2
      subst hx2
      exact hfresh (hperm.mem_iff.mp (List.mem_append_left _ hx))
    · show (s.submitted ++ [tid]).Nodup
      rw [List.nodup_append]
      refine ⟨hsub, by simp, ?_⟩
      intro x hx hx2
      simp at hx2
      subst hx2
      exact hfresh hx
    · show (((s.live ++ [(tid, false)]).map Prod.fst) ++ s.destroyed).Perm
        (s.submitted ++ [tid])
      rw [List.map_append]
      have h1 : ((s.live.map Prod.fst ++ [tid]) ++ s.destroyed).Perm
          ((s.live.map Prod.fst ++ s.destroyed) ++ [tid]) := by
        rw [List.append_assoc, List.append_assoc]
        exact List.Perm.append_left _ List.perm_append_comm
      exact h1.trans (hperm.append_right [tid])
    · intro hf
      rw [hfin] at hf
      exact absurd hf (by simp)
    · intro hf
      rw [hfin] at hf
      exact absurd hf (by simp)
    · intro h
      exact absurd (hsd h).2 (by simp [hfin])
  | startPerform w tid i hpw hlive =>
    have hmapsame : (s.live.set i (tid, true)).map Prod.fst = s.live.map Prod.fst := by
      rw [List.map_set]
      apply set_get?_self
      rw [List.get?_map, hlive]
      rfl
    refine ⟨?_, ?_, ?_, hsub, ?_, ?_, hcf, ?_⟩
    · intro w2 tid2 hp2
      by_cases hw2 : w2 = w
      · simp only [hw2, if_pos rfl] at hp2
        cases hp2
        refine List.get?_mem (n := i) ?_
        rw [List.get?_set_eq, hlive]
        rfl
      · simp only [if_neg hw2] at hp2
        refine mem_set_of_ne (ha w2 tid2 hp2) hlive ?_
        simp
    · intro w1 w2 tid2 h1 h2
      by_cases hw1 : w1 = w <;> by_cases hw2 : w2 = w
      · rw [hw1, hw2]
      · simp only [hw1, if_pos rfl] at h1
        simp only [if_neg hw2] at h2
        cases h1
        exfalso
        obtain ⟨j, hj⟩ := List.get?_of_mem (ha w2 tid h2)
        have hji : j = i := live_index_unique hnd hj hlive rfl
        rw [hji, hlive] at hj
        simp at hj
      · simp only [hw2, if_pos rfl] at h2
        simp only [if_neg hw1] at h1
        cases h2
        exfalso
        obtain ⟨j, hj⟩ := List.get?_of_mem (ha w1 tid h1)
        have hji : j = i := live_index_unique hnd hj hlive rfl
        rw [hji, hlive] at hj
        simp at hj
      · simp only [if_neg hw1] at h1
        simp only [if_neg hw2] at h2
        exact hmx w1 w2 tid2 h1 h2
    · rw [hmapsame]
      exact hnd
    · rw [hmapsame]
      exact hperm
    · intro hf tid2 hmem
      rw [hmapsame] at hmem
      exact hcl hf tid2 hmem
    · intro h
      exfalso
      rw [(hsd h).1] at hlive
      simp at hlive
  | finishRepeat w tid i hpw hlive =>
    have hmapsame : (s.live.set i (tid, false)).map Prod.fst = s.live.map Prod.fst := by
      rw [List.map_set]
      apply set_get?_self
      rw [List.get?_map, hlive]
      rfl
    refine ⟨?_, ?_, ?_, hsub, ?_, ?_, hcf, ?_⟩
    · intro w2 tid2 hp2
      by_cases hw2 : w2 = w
      · simp only [hw2, if_pos rfl] at hp2
        cases hp2
      · simp only [if_neg hw2] at hp2
        have htne : tid2 ≠ tid := by
          intro hcontra
          subst hcontra
          exact hw2 (hmx w2 w tid2 hp2 hpw)
        refine mem_set_of_ne (ha w2 tid2 hp2) hlive ?_
        simp [htne]
    · intro w1 w2 tid2 h1 h2
      by_cases hw1 : w1 = w
      · simp only [hw1, if_pos rfl] at h1
        cases h1
      · by_cases hw2 : w2 = w
        · simp only [hw2, if_pos rfl] at h2
          cases h2
        · simp only [if_neg hw1] at h1
          simp only [if_neg hw2] at h2
          exact hmx w1 w2 tid2 h1 h2
    · rw [hmapsame]
      exact hnd
    · rw [hmapsame]
      exact hperm
    · intro hf tid2 hmem
      rw [hmapsame] at hmem
      exact hcl hf tid2 hmem
    · intro h
      exfalso
      rw [(hsd h).1] at hlive
      simp at hlive
  | finishComplete w tid i hpw hlive =>
    have hmape : (s.live.eraseIdx i).map Prod.fst = (s.live.map Prod.fst).eraseIdx i :=
      map_eraseIdx Prod.fst s.live i
    have hgetm : (s.live.map Prod.fst).get? i = some tid := by
      rw [List.get?_map, hlive]
      rfl
    refine ⟨?_, ?_, ?_, hsub, ?_, ?_, hcf, ?_⟩
    · intro w2 tid2 hp2
      by_cases hw2 : w2 = w
      · simp only [hw2, if_pos rfl] at hp2
        cases hp2
      · simp only [if_neg hw2] at hp2
        have htne : tid2 ≠ tid := by
          intro hcontra
          subst hcontra
          exact hw2 (hmx w2 w tid2 hp2 hpw)
        refine mem_eraseIdx_of_ne (ha w2 tid2 hp2) hlive ?_
        simp [htne]
    · intro w1 w2 tid2 h1 h2
      by_cases hw1 : w1 = w
      · simp only [hw1, if_pos rfl] at h1
        cases h1
      · by_cases hw2 : w2 = w
        · simp only [hw2, if_pos rfl] at h2
          cases h2
        · simp only [if_neg hw1] at h1
          simp only [if_neg hw2] at h2
          exact hmx w1 w2 tid2 h1 h2
    · rw [hmape]
      exact List.Nodup.sublist (List.eraseIdx_sublist _ _) hnd
    · rw [hmape]
      have hp2 : (s.live.map Prod.fst).Perm (tid :: (s.live.map Prod.fst).eraseIdx i) :=
        perm_cons_eraseIdx hgetm
      have hstep1 : ((s.live.map Prod.fst).eraseIdx i ++ (s.destroyed ++ [tid])).Perm
          (((s.live.map Prod.fst).eraseIdx i ++ [tid]) ++ s.destroyed) := by
        rw [List.append_assoc]
        exact List.Perm.append_left _ List.perm_append_comm
      have hstep2 : (((s.live.map Prod.fst).eraseIdx i ++ [tid]) ++ s.destroyed).Perm
          ((tid :: (s.live.map Prod.fst).eraseIdx i) ++ s.destroyed) :=
        List.Perm.append_right _ List.perm_append_comm
      have hstep3 : ((tid :: (s.live.map Prod.fst).eraseIdx i) ++ s.destroyed).Perm
          (s.live.map Prod.fst ++ s.destroyed) :=
        List.Perm.append_right _ hp2.symm
      exact ((hstep1.trans hstep2).trans hstep3).trans hperm
    · intro hf tid2 hmem
      rw [hmape] at hmem
      exact hcl hf tid2 ((List.eraseIdx_sublist _ _).subset hmem)
    · intro h
      exfalso
      rw [(hsd h).1] at hlive
      simp at hlive
  | setFinish hfin =>
    refine ⟨ha, hmx, hnd, hsub, hperm, ?_, ?_, ?_⟩
    · intro _ tid2 hmem
      exact List.mem_append_right _ hmem
    · intro _ tid2 hmem
      exact List.mem_append_right _ hmem
    · intro h
      exact absurd (hsd h).2 (by simp [hfin])
  | reap hfin hidle =>
    refine ⟨?_, ?_, by simp, hsub, ?_, ?_, ?_, ?_⟩
    · intro w tid2 hp
      rw [hidle w] at hp
      cases hp
    · intro w1 w2 tid2 h1 h2
      rw [hidle w1] at h1
      cases h1
    · show (([] : List (Int × Bool)).map Prod.fst
          ++ (s.destroyed ++ s.live.map Prod.fst)).Perm s.submitted
      simp only [List.map_nil, List.nil_append]
      exact List.perm_append_comm.trans hperm
    · intro _ tid2 hmem
      simp at hmem
    · intro _
      exact hcf hfin
    · intro _
      exact ⟨rfl, hfin⟩

theorem reach_sysInv (s : SysState) (h : Reach s) : SysInv s := by
  induction h with
  | refl =>
    refine ⟨?_, ?_, ?_, ?_, ?_, ?_, ?_, ?_⟩ <;> simp [initSys, SysInv]
  | tail hsteps hstep ih => exact sysInv_step hstep ih

/-- C4: in every reachable interleaving, a worker inside `performTask` of a
task holds that entry's `active` flag (set and cleared only under the
registry lock, i.e. only by the atomic `startPerform` / `finishRepeat` /
`finishComplete` steps), and no two workers are ever inside `performTask`
for the same taskID at the same time, for every pool width. -/
theorem performTask_mutual_exclusion (s : SysState) (h : Reach s) :
    (∀ w tid, s.performing w = some tid → (tid, true) ∈ s.live)
      ∧ (∀ w1 w2 tid, s.performing w1 = some tid → s.performing w2 = some tid →
          w1 = w2) := by
  obtain ⟨ha, hmx, -⟩ := reach_sysInv s h
  exact ⟨ha, hmx⟩

/-- A reachable state with worker 0 inside `performTask` of task 5,
witnessing C4. -/
def sysW : SysState :=
  { live := [(5, true)], performing := fun w => if w = 0 then some 5 else none,
    finish := false, submitted := [5], cancelled := [], destroyed := [],
    atFinishLive := [], shutdownDone := false }

/-- Witness for C4's theorem: at `sysW` the performed task's entry is
marked active. -/
theorem performTask_mutual_exclusion_witness : ((5 : Int), true) ∈ sysW.live := by
  have hreach : Reach sysW := by
    have t1 : Relation.ReflTransGen Step initSys
        { initSys with live := [(5, false)], submitted := [5] } :=
      Relation.ReflTransGen.tail Relation.ReflTransGen.refl
        (Step.submit initSys 5 rfl (by simp [initSys]))
    exact Relation.ReflTransGen.tail t1
      (Step.startPerform { initSys with live := [(5, false)], submitted := [5] } 0 5 0 rfl rfl)
  exact (performTask_mutual_exclusion sysW hreach).1 0 5 rfl

/-- C5: in every reachable state in which the destructor has completed,
the registry is empty, the destroyed ids are exactly the submitted ids
(each task's entry destroyed exactly once — either at normal completion or
at shutdown, never both), and every task that was still in the registry
when the destructor set the finish flag received `cancelTask()`. -/
theorem shutdown_spec (s : SysState) (h : Reach s) (hdone : s.shutdownDone = true) :
    s.live = []
      ∧ s.destroyed.Perm s.submitted
      ∧ s.destroyed.Nodup
      ∧ (∀ tid ∈ s.atFinishLive, tid ∈ s.cancelled) := by
  obtain ⟨-, -, -, hsub, hperm, -, hcf, hsd⟩ := reach_sysInv s h
  obtain ⟨hl, hf⟩ := hsd hdone
  rw [hl] at hperm
  simp only [List.map_nil, List.nil_append] at hperm
  exact ⟨hl, hperm, (hsub.perm hperm.symm), hcf hf⟩

/-- The reachable post-destruction state used to witness C5. -/
def sysW5 : SysState :=
  { live := [], performing := fun _ => none, finish := true, submitted := [7],
    cancelled := [7], destroyed := [7], atFinishLive := [7], shutdownDone := true }

/-- Witness for C5's theorem: submitting task 7 and then destroying the
queue destroys exactly its entry and cancels it. -/
theorem shutdown_spec_witness :
    sysW5.destroyed.Perm sysW5.submitted ∧ sysW5.destroyed.Nodup
      ∧ (7 : Int) ∈ sysW5.cancelled := by
  have hreach : Reach sysW5 := by
    have t1 : Relation.ReflTransGen Step initSys
        { initSys with live := [(7, false)], submitted := [7] } :=
      Relation.ReflTransGen.tail Relation.ReflTransGen.refl
        (Step.submit initSys 7 rfl (by simp [initSys]))
    have t2 : Relation.ReflTransGen Step initSys
        { initSys with live := [(7, false)], submitted := [7], finish := true, cancelled := [7], atFinishLive := [7] } :=
      Relation.ReflTransGen.tail t1
        (Step.setFinish { initSys with live := [(7, false)], submitted := [7] } rfl)
    exact Relation.ReflTransGen.tail t2
      (Step.reap { initSys with live := [(7, false)], submitted := [7], finish := true, cancelled := [7], atFinishLive := [7] } rfl (fun w => rfl))
  have h := shutdown_spec sysW5 hreach rfl
  exact ⟨h.2.1, h.2.2.1, h.2.2.2 7 (by simp [sysW5])⟩

end TpTaskQueue
